import Mathlib

/-!
# Verification development for the moses decoder sources

Shallow embedding of

* `contrib/other-builds/moses2/SCFG/Stacks.cpp` (`Stacks::Init`),
* `contrib/other-builds/moses2/PhraseBased/TargetPhrases.h`,
* `contrib/other-builds/moses2/FeatureFunctions.cpp`,
* `moses/FF/VW/VW.h` (`EvaluateTranslationOptionListWithSourceContext`),
* `scripts/training/phrase-extract/consolidate.cpp` (`processFiles`, `splitLine`).

Conventions: `size_t` and `int` values are natural numbers (every index below is
bounded by a container length or by `LINE_MAX_LENGTH`); an access outside a
container, which C++ leaves undefined, is an explicit failure value.
-/

set_option autoImplicit false

/-! ## SCFG/Stacks.cpp -/

namespace Moses2
namespace SCFG

/-- The `SCFG::Manager` a stack is created for (only its identity matters here). -/
structure Manager where
  id : Nat
deriving DecidableEq, Repr

/-- A heap object made by `new Stack(mgr)`: the manager it was built with and the
address `new` returned. -/
structure Stack where
  mgr : Manager
  addr : Nat
deriving DecidableEq, Repr

/-- The class `Stacks`: `m_cells` is a `std::vector<std::vector<Stack*> >`. -/
structure Stacks where
  m_cells : List (List Stack)
deriving DecidableEq, Repr

/-- A freshly constructed `Stacks` (`m_cells` default-constructed, hence empty). -/
def Stacks.fresh : Stacks := ⟨[]⟩

/-- The call `std::vector::resize(size)`: keep the first `size` rows, pad with empty rows. -/
def resize (cells : List (List Stack)) (size : Nat) : List (List Stack) :=
  cells.take size ++ List.replicate (size - cells.length) []

/-- The inner loop of `Stacks::Init`:
`for (size_t endPos = startPos; endPos < size; ++endPos) inner.push_back(new Stack(mgr));`
`heap` is the next address `new` hands out. -/
def Init.innerLoop (mgr : Manager) (size : Nat) (endPos : Nat) (inner : List Stack)
    (heap : Nat) : List Stack × Nat :=
  if endPos < size then
    Init.innerLoop mgr size (endPos + 1) (inner ++ [⟨mgr, heap⟩]) (heap + 1)
  else (inner, heap)
termination_by size - endPos

/-- The outer loop of `Stacks::Init`:
`for (size_t startPos = 0; startPos < size; ++startPos) { inner = m_cells[startPos]; ... }`.
(`inner.reserve` changes capacity only and has no counterpart.) -/
def Init.outerLoop (mgr : Manager) (size : Nat) (startPos : Nat) (cells : List (List Stack))
    (heap : Nat) : List (List Stack) × Nat :=
  if startPos < size then
    let r := Init.innerLoop mgr size startPos (cells.getD startPos []) heap
    Init.outerLoop mgr size (startPos + 1) (cells.set startPos r.1) r.2
  else (cells, heap)
termination_by size - startPos

/-- The method `void Stacks::Init(SCFG::Manager &mgr, size_t size)`; returns the new object and
the next free heap address. -/
def Stacks.Init (self : Stacks) (heap : Nat) (mgr : Manager) (size : Nat) : Stacks × Nat :=
  let r := Init.outerLoop mgr size 0 (resize self.m_cells size) heap
  (⟨r.1⟩, r.2)

/-- The cell of span `(start, end)`: `m_cells[start][end - start]`. -/
def Stacks.cell (self : Stacks) (startPos endPos : Nat) : Option Stack :=
  (self.m_cells.getD startPos []).get? (endPos - startPos)

end SCFG

/-! ## PhraseBased/TargetPhrases.h -/

/-- The class `TargetPhrases` over phrases of type `α`: `m_coll` is an
`Array<const TargetPhrase*>` of fixed size whose slots hold `none` until written,
`m_currInd` the write index. -/
structure TargetPhrases (α : Type) where
  m_coll : List (Option α)
  m_currInd : Nat
deriving DecidableEq, Repr

namespace TargetPhrases

variable {α : Type}

/-- Modelled from the spec: the constructor `TargetPhrases(MemPool&, size_t size)`
(its body is in TargetPhrases.cpp, not among the sources): capacity fixed at
construction, write index starting at 0. -/
def construct (size : Nat) : TargetPhrases α := ⟨List.replicate size none, 0⟩

/-- The method `void AddTargetPhrase(const TargetPhrase &targetPhrase)`:
`m_coll[m_currInd++] = &targetPhrase;`. A write outside the array is `none`. -/
def AddTargetPhrase (self : TargetPhrases α) (targetPhrase : α) : Option (TargetPhrases α) :=
  if self.m_currInd < self.m_coll.length then
    some ⟨self.m_coll.set self.m_currInd (some targetPhrase), self.m_currInd + 1⟩
  else none

/-- The method `size_t GetSize() const`: `m_coll.size()`. -/
def GetSize (self : TargetPhrases α) : Nat := self.m_coll.length

/-- The operator `const TargetPhrase& operator[](size_t ind) const`: `*m_coll[ind]`; `none` when
`ind` is outside the array or the slot was never written. -/
def get (self : TargetPhrases α) (ind : Nat) : Option α := (self.m_coll.get? ind).join

/-- A sequence of `AddTargetPhrase` calls, one per element, in order. -/
def addAll (self : TargetPhrases α) : List α → Option (TargetPhrases α)
  | [] => some self
  | p :: ps => (self.AddTargetPhrase p).bind fun s => s.addAll ps

end TargetPhrases
end Moses2

/-! ## FeatureFunctions.cpp -/

namespace FF

/-- How a call ends: it returns a value, it throws a `util::Exception`
(`UTIL_THROW2`, `UTIL_THROW_IF2`, or a constructor that rejects its line), or it
leaves defined C++ behaviour (reading an uninitialised pointer, `toks[0]` of an
empty vector). -/
inductive Result (α : Type) where
  | ok : α → Result α
  | exception : String → Result α
  | undefinedBehaviour : Result α
deriving DecidableEq, Repr

/-- A feature function object as the registry sees it: the answers of
`dynamic_cast<PhraseTable*>` and `dynamic_cast<StatefulFeatureFunction*>`, the start
index passed to its constructor, `GetNumScores()` and `GetName()`. -/
structure FeatureFunction where
  isPhraseTable : Bool
  isStateful : Bool
  m_startInd : Nat
  m_numScores : Nat
  m_name : String
deriving DecidableEq, Repr

/-- The accessor `GetNumScores()`. -/
def FeatureFunction.GetNumScores (ff : FeatureFunction) : Nat := ff.m_numScores

/-- The accessor `GetName()`. -/
def FeatureFunction.GetName (ff : FeatureFunction) : String := ff.m_name

/-- What a feature function constructor reads from its spec line. -/
structure LineInfo where
  name : String
  numScores : Nat
deriving DecidableEq, Repr

/-- The reading of a spec line `Name key=value ...` by the feature function base
constructor (FeatureFunction.h and PhraseTable.h are not among the sources), taken
as a parameter: `none` when the constructor rejects the line. -/
abbrev LineReader := String → Option LineInfo

/-- Modelled from the spec: the constructor `PhraseTable(size_t startInd, const
std::string &line)` (PhraseTable.h is not among the sources): a table provider that
owns the score range starting at `startInd`, with the number of scores and the name
its line declares; required keys are validated at construction. -/
def PhraseTable.new (rd : LineReader) (startInd : Nat) (line : String) :
    Option FeatureFunction :=
  (rd line).map fun info =>
    { isPhraseTable := true, isStateful := false, m_startInd := startInd,
      m_numScores := info.numScores, m_name := info.name }

/-- The default delimiters of `Moses::Tokenize`: blank and tab. -/
def isDelimiter (c : Char) : Bool := c = ' ' || c = Char.ofNat 9

/-- Splitting of a character sequence at runs of delimiters; `cur` is the token
being read. -/
def tokenizeAux : List Char → List Char → List (List Char)
  | [], cur => if cur = [] then [] else [cur]
  | c :: cs, cur =>
    if isDelimiter c then
      (if cur = [] then tokenizeAux cs [] else cur :: tokenizeAux cs [])
    else tokenizeAux cs (cur ++ [c])

/-- Modelled from the spec: `Moses::Tokenize(line)` (moses/Util.h is not among the
sources): the tokens of a line `Name key1=val1 key2=val2 ...`, separated by blanks
or tabs. -/
def Tokenize (str : String) : List String := (tokenizeAux str.toList []).map String.mk

/-- The class `FeatureFunctions`: the three registries and the running start index. -/
structure FeatureFunctions where
  m_featureFunctions : List FeatureFunction
  m_statefulFeatureFunctions : List FeatureFunction
  m_phraseTables : List FeatureFunction
  m_ffStartInd : Nat
deriving DecidableEq, Repr

/-- The constructor `FeatureFunctions(System &system)`: empty registries,
`m_ffStartInd(0)`. -/
def FeatureFunctions.fresh : FeatureFunctions := ⟨[], [], [], 0⟩

/-- The statements of `FeatureFunctions::Create` (lines 78-86), up to the closing
brace of the function: the value is the local pointer `ret` and the object after
line 86.

The only recognised name is `PhraseDictionaryMemory`: line 82 builds the phrase table
with the running start index, line 86 advances the running start index by
`ret->GetNumScores()`. For any other first token the pointer `ret` stays
uninitialised and line 86 reads through it; for a line without a token `toks[0]` is
outside the vector. -/
def FeatureFunctions.CreateBody (rd : LineReader) (self : FeatureFunctions) (line : String) :
    Result (FeatureFunction × FeatureFunctions) :=
  match Tokenize line with
  | [] => .undefinedBehaviour
  | tok0 :: _ =>
    if tok0 = "PhraseDictionaryMemory" then
      match PhraseTable.new rd self.m_ffStartInd line with
      | none => .exception "PhraseTable"
      | some ret =>
        .ok (ret, { self with m_ffStartInd := self.m_ffStartInd + ret.GetNumScores })
    else .undefinedBehaviour

/-- The method `FeatureFunction *FeatureFunctions::Create(const std::string &line)`:
its statements, after which the closing brace is reached without a `return`
statement. The function is declared to return a `FeatureFunction*`, so flowing off
its end is undefined behaviour: the pointer the caller reads is indeterminate. An
exception thrown by the statements leaves the function as it is thrown. -/
def FeatureFunctions.Create (rd : LineReader) (self : FeatureFunctions) (line : String) :
    Result (FeatureFunction × FeatureFunctions) :=
  match self.CreateBody rd line with
  | .ok _ => .undefinedBehaviour
  | .exception e => .exception e
  | .undefinedBehaviour => .undefinedBehaviour

/-- The first loop of `LoadFeatureFunctions` (lines 37-54): for each spec line create
the instance, register it, register it as stateful and as phrase table according to
the dynamic casts, and advance `m_ffStartInd` by its number of scores. -/
def FeatureFunctions.createLoop (rd : LineReader) :
    FeatureFunctions → List String → Result FeatureFunctions
  | self, [] => .ok self
  | self, line :: rest =>
    match self.Create rd line with
    | .ok (ff, s1) =>
      let s2 := { s1 with m_featureFunctions := s1.m_featureFunctions ++ [ff] }
      let s3 := if ff.isStateful then
          { s2 with m_statefulFeatureFunctions := s2.m_statefulFeatureFunctions ++ [ff] }
        else s2
      let s4 := if ff.isPhraseTable then
          { s3 with m_phraseTables := s3.m_phraseTables ++ [ff] }
        else s3
      let s5 := { s4 with m_ffStartInd := s4.m_ffStartInd + ff.GetNumScores }
      FeatureFunctions.createLoop rd s5 rest
    | .exception e => .exception e
    | .undefinedBehaviour => .undefinedBehaviour

/-- The second loop of `LoadFeatureFunctions` (lines 57-67): the `Load` calls made on
everything but phrase tables, appended to the calls made so far. -/
def FeatureFunctions.loadNonPT : List FeatureFunction → List FeatureFunction →
    List FeatureFunction
  | [], loads => loads
  | ff :: rest, loads =>
    if ff.isPhraseTable then FeatureFunctions.loadNonPT rest loads
    else FeatureFunctions.loadNonPT rest (loads ++ [ff])

/-- The third loop of `LoadFeatureFunctions` (lines 70-73): `Load` on every entry of
`m_phraseTables`. -/
def FeatureFunctions.loadPT : List FeatureFunction → List FeatureFunction →
    List FeatureFunction
  | [], loads => loads
  | pt :: rest, loads => FeatureFunctions.loadPT rest (loads ++ [pt])

/-- The method `void FeatureFunctions::LoadFeatureFunctions()`. `ffParams` is
`params.GetParam("feature")` (`none` for `NULL`). The result is the registry after
the call and the sequence of `Load` calls in the order they were made (each `Load`
is taken to return). -/
def FeatureFunctions.LoadFeatureFunctions (rd : LineReader) (self : FeatureFunctions)
    (ffParams : Option (List String)) : Result (FeatureFunctions × List FeatureFunction) :=
  match ffParams with
  | none => .exception "Must have [feature] section"
  | some lines =>
    match self.createLoop rd lines with
    | .ok s =>
      let loads1 := FeatureFunctions.loadNonPT s.m_featureFunctions []
      let loads2 := FeatureFunctions.loadPT s.m_phraseTables loads1
      .ok (s, loads2)
    | .exception e => .exception e
    | .undefinedBehaviour => .undefinedBehaviour

/-- The loop of `FindFeatureFunction`: the first entry whose `GetName()` equals
`name`. -/
def FeatureFunctions.findLoop : List FeatureFunction → String → Option FeatureFunction
  | [], _ => none
  | ff :: rest, name =>
    if ff.GetName = name then some ff else FeatureFunctions.findLoop rest name

/-- The method `const FeatureFunction &FeatureFunctions::FindFeatureFunction(const
std::string &name)`: the result and the registry after the call. -/
def FeatureFunctions.FindFeatureFunction (self : FeatureFunctions) (name : String) :
    Result FeatureFunction × FeatureFunctions :=
  match FeatureFunctions.findLoop self.m_featureFunctions name with
  | some ff => (.ok ff, self)
  | none => (.exception (name ++ " not found"), self)

/-- A reader for examples: every line declares one score and is named by its text. -/
def oneScoreReader : LineReader := fun line => some ⟨line, 1⟩

end FF

/-! ## moses/FF/VW/VW.h -/

namespace Moses

/-- Modelled from the spec: `Discriminative::VWPredictorFactory` (Classifier.h is not
among the sources): a bounded pool of reusable classifier handles with
acquire/release semantics. `free` are the handles in the pool, `checkedOut` counts
the handles acquired and not yet released. -/
structure VWPredictorFactory (Cl : Type) where
  free : List Cl
  checkedOut : Nat
deriving DecidableEq, Repr

/-- Modelled from the spec: `VWPredictorFactory::Acquire()`: takes a handle out of
the pool; with no handle left the caller blocks until one is released, which is
`none` here. -/
def VWPredictorFactory.Acquire {Cl : Type} (p : VWPredictorFactory Cl) :
    Option (Cl × VWPredictorFactory Cl) :=
  match p.free with
  | [] => none
  | h :: rest => some (h, ⟨rest, p.checkedOut + 1⟩)

/-- Modelled from the spec: `VWPredictorFactory::Release(handle)`: puts the handle
back into the pool. -/
def VWPredictorFactory.Release {Cl : Type} (p : VWPredictorFactory Cl) (h : Cl) :
    VWPredictorFactory Cl :=
  ⟨p.free ++ [h], p.checkedOut - 1⟩

/-- A `TranslationOption` as this function uses it: source range, input path, target
phrase and score breakdown (`Sb`). -/
structure TranslationOption (Sb : Type) where
  sourceWordsRange : Nat × Nat
  inputPath : Nat
  targetPhrase : Nat
  scoreBreakdown : Sb
deriving DecidableEq, Repr

/-- The collaborators of `VW` whose code is elsewhere, over a classifier session
type `Cl`, a number type `Sc` standing for `float`, and a score breakdown type `Sb`:
the registered source and target features (each call changes the classifier),
`Classifier::Predict`, the loss normalizer, `TransformScore`, and
`ScoreComponentCollection::PlusEquals` followed by `UpdateScore`. -/
structure VWEnv (Cl Sc Sb : Type) where
  sourceFeatures : List (Nat → Nat → Nat × Nat → Cl → Cl)
  targetFeatures : List (Nat → Nat → Nat → Cl → Cl)
  Predict : Cl → String → Sc × Cl
  normalizer : List Sc → List Sc
  TransformScore : Sc → Sc
  PlusEquals : Sb → List Sc → Sb

/-- The members of `VW` the function reads: `m_train` (false means predict),
`m_trainer` and `m_predictorFactory` (`none` for `NULL`). -/
structure VW (Cl : Type) where
  m_train : Bool
  m_trainer : Option Cl
  m_predictorFactory : Option (VWPredictorFactory Cl)
deriving DecidableEq, Repr

/-- The constant `const std::string VW_DUMMY_LABEL = "1111"`. -/
def VW_DUMMY_LABEL : String := "1111"

/-- The method `std::string MakeTargetLabel(const TargetPhrase &targetPhrase) const`. -/
def MakeTargetLabel (_targetPhrase : Nat) : String := VW_DUMMY_LABEL

/-- The first loop over the translation options (lines 99-108): apply every target
feature, then `Predict`; returns the losses and the classifier. -/
def VW.predictLoop {Cl Sc Sb : Type} (env : VWEnv Cl Sc Sb) (input inputPath : Nat) :
    List (TranslationOption Sb) → Cl → List Sc × Cl
  | [], classifier => ([], classifier)
  | opt :: rest, classifier =>
    let c1 := env.targetFeatures.foldl
      (fun c f => f input inputPath opt.targetPhrase c) classifier
    let r := env.Predict c1 (MakeTargetLabel opt.targetPhrase)
    let rs := VW.predictLoop env input inputPath rest r.2
    (r.1 :: rs.1, rs.2)

/-- The second loop over the translation options (lines 115-126): add the transformed
loss to the score breakdown of each option. -/
def VW.scoreLoop {Cl Sc Sb : Type} (env : VWEnv Cl Sc Sb) :
    List (TranslationOption Sb) → List Sc → List (TranslationOption Sb)
  | opt :: rest, loss :: losses =>
    { opt with scoreBreakdown := env.PlusEquals opt.scoreBreakdown [env.TransformScore loss] }
      :: VW.scoreLoop env rest losses
  | opts, _ => opts

/-- The method `void VW::EvaluateTranslationOptionListWithSourceContext(const InputType &input,
const TranslationOptionList &translationOptionList) const`: the object (trainer and
predictor pool) and the translation options after the call; `none` when the call does
not return (blocked in `Acquire`, or a `NULL` member is used). -/
def VW.EvaluateTranslationOptionListWithSourceContext {Cl Sc Sb : Type}
    (env : VWEnv Cl Sc Sb) (self : VW Cl) (input : Nat)
    (translationOptionList : List (TranslationOption Sb)) :
    Option (VW Cl × List (TranslationOption Sb)) :=
  -- classifier = m_train ? m_trainer : m_predictorFactory->Acquire()
  let acquired : Option (Cl × VW Cl) :=
    if self.m_train then self.m_trainer.map fun t => (t, self)
    else match self.m_predictorFactory with
      | none => none
      | some pool => pool.Acquire.map fun r => (r.1, { self with m_predictorFactory := some r.2 })
  match acquired with
  | none => none
  | some (classifier, s1) =>
    match translationOptionList with
    | [] => some (s1, [])            -- return; // nothing to do
    | first :: _ =>
      let sourceRange := first.sourceWordsRange
      let inputPath := first.inputPath
      let c1 := env.sourceFeatures.foldl (fun c f => f input inputPath sourceRange c) classifier
      let r := VW.predictLoop env input inputPath translationOptionList c1
      -- if (!m_train) m_predictorFactory->Release(classifier)
      let s2 : VW Cl :=
        if s1.m_train then { s1 with m_trainer := some r.2 }
        else { s1 with m_predictorFactory := s1.m_predictorFactory.map fun pool => pool.Release r.2 }
      let losses := env.normalizer r.1
      some (s2, VW.scoreLoop env translationOptionList losses)

/-- Number of handles checked out of the predictor pool of a `VW` object. -/
def VW.handlesOut {Cl : Type} (self : VW Cl) : Nat :=
  match self.m_predictorFactory with
  | none => 0
  | some pool => pool.checkedOut

/-- An environment for examples: classifier sessions and scores are numbers, no
features are registered, every prediction is 0. -/
def exampleEnv : VWEnv Nat Nat Nat :=
  { sourceFeatures := [], targetFeatures := [], Predict := fun c _ => (0, c),
    normalizer := id, TransformScore := id, PlusEquals := fun sb xs => sb + xs.sum }

end Moses

/-! ## scripts/training/phrase-extract/consolidate.cpp -/

namespace Consolidate

/-- The constant of `#define LINE_MAX_LENGTH 10000`. -/
def LINE_MAX_LENGTH : Nat := 10000

/-- The terminator of a C string. -/
def NUL : Char := Char.ofNat 0

/-- The separator of table fields, `" ||| "`. -/
def SEP : List Char := [' ', '|', '|', '|', ' ']

/-- The content of the global `char line[LINE_MAX_LENGTH]` after a line of text was
read into it: the text and its terminating `NUL`. A read at an index beyond this
list is a read past the terminator. `none` when the text and its terminator do not
fit. -/
def lineBuffer (text : List Char) : Option (List Char) :=
  if text.length < LINE_MAX_LENGTH then some (text ++ [NUL]) else none

/-- The condition of the `if` in `splitLine`, with the left-to-right short-circuit
evaluation of `&&`: `line[i+1]` is read only if `line[i] == ' '`, and so on. `none`
when a read falls outside the buffer content. -/
def separatorAt (line : List Char) (i : Nat) : Option Bool :=
  match line.get? i with
  | none => none
  | some c0 =>
    if c0 ≠ ' ' then some false else
    match line.get? (i + 1) with
    | none => none
    | some c1 =>
      if c1 ≠ '|' then some false else
      match line.get? (i + 2) with
      | none => none
      | some c2 =>
        if c2 ≠ '|' then some false else
        match line.get? (i + 3) with
        | none => none
        | some c3 =>
          if c3 ≠ '|' then some false else
          match line.get? (i + 4) with
          | none => none
          | some c4 => some (decide (c4 = ' '))

/-- The string `string(line+start, i-start)`: the `i-start` characters from `line+start`;
`none` when `i-start` is negative or the copy leaves the buffer content. -/
def mkString (line : List Char) (start i : Nat) : Option (List Char) :=
  if start ≤ i ∧ i ≤ line.length then some ((line.drop start).take (i - start)) else none

/-- The `for` loop of `splitLine` from the state `(start, i, item)`; one unit of
`fuel` per iteration. Returns `item`, `start` and `i` at the exit of the loop. -/
def splitLoop (line : List Char) : Nat → Nat → Nat → List (List Char) →
    Option (List (List Char) × Nat × Nat)
  | 0, _, _, _ => none
  | fuel + 1, start, i, item =>
    match line.get? i with
    | none => none
    | some c =>
      if c = NUL then some (item, start, i) else
      match separatorAt line i with
      | none => none
      | some false => splitLoop line fuel start (i + 1) item
      | some true =>
        let start1 := if start > i then i else start   -- empty item
        match mkString line start1 i with
        | none => none
        | some s => splitLoop line fuel (i + 5) (i + 3 + 1) (item ++ [s])

/-- The function `vector< string > splitLine()` on the buffer content `line`. Every iteration
moves `i` forward, so `line.length` iterations are enough to reach the exit. -/
def splitLine (line : List Char) : Option (List (List Char)) :=
  match splitLoop line line.length 0 0 [] with
  | none => none
  | some (item, start, i) =>
    match mkString line start i with
    | none => none
    | some s => some (item ++ [s])

/-- The fields of a table line joined by `" ||| "`. -/
def joinFields : List (List Char) → List Char
  | [] => []
  | [f] => f
  | f :: g :: rest => f ++ SEP ++ joinFields (g :: rest)

/-- The command line switches read by `processFiles`. -/
structure Flags where
  onlyDirectFlag : Bool
  phraseCountFlag : Bool
  logProbFlag : Bool
deriving DecidableEq, Repr

/-- How the body of the `while` loop of `processFiles` ends for one pair of lines:
it appends `out` to the consolidated file, it stops the program with `exit(1)`, or it
indexes a vector outside its size. -/
inductive Step where
  | written : List Char → Step
  | exit1 : Step
  | outOfRange : Step
deriving DecidableEq, Repr

/-- The counts written at lines 153-159: `"||| "`, the first indirect count, a blank,
the first direct count, and the rule count if present in either file. -/
def writeCounts (directCounts indirectCounts : List (List Char)) : Option (List Char) :=
  match indirectCounts.get? 0, directCounts.get? 0 with
  | some i0, some d0 =>
    let out := ['|', '|', '|', ' '] ++ i0 ++ [' '] ++ d0
    if directCounts.length > 1 then
      (directCounts.get? 1).map fun d1 => out ++ [' '] ++ d1
    else if indirectCounts.length > 1 then
      (indirectCounts.get? 1).map fun i1 => out ++ [' '] ++ i1
    else some out
  | _, _ => none

/-- The body of the `while` loop of `processFiles` (lines 118-161) for the items of
one direct and one indirect line. `tokenize` is the function of tables-core.h (not
among the sources), taken as a parameter. -/
def processPair (tokenize : List Char → List (List Char)) (flags : Flags)
    (itemDirect itemIndirect : List (List Char)) : Step :=
  match itemDirect.get? 0, itemIndirect.get? 0 with
  | some d0, some i0 =>
    if d0 ≠ i0 then .exit1 else
    match itemDirect.get? 1, itemIndirect.get? 1 with
    | some d1, some i1 =>
      if d1 ≠ i1 then .exit1 else
      let probIndirect : Option (List Char) :=
        if !flags.onlyDirectFlag then itemIndirect.get? 2 else some []
      match probIndirect, itemDirect.get? 2, itemDirect.get? 3,
          itemDirect.get? 4, itemIndirect.get? 4 with
      | some p, some d2, some d3, some d4, some i4 =>
        let out1 := d0 ++ SEP ++ d1 ++ SEP ++ p
        let out2 := out1 ++ [' '] ++ d2
        let out3 := if flags.phraseCountFlag then
            out2 ++ [' '] ++ (if flags.logProbFlag then "1".toList else "2.718".toList)
          else out2
        let out4 := out3 ++ SEP ++ d3
        match writeCounts (tokenize d4) (tokenize i4) with
        | some counts => .written (out4 ++ counts ++ [Char.ofNat 10])
        | none => .outOfRange
      | _, _, _, _, _ => .outOfRange
    | _, _ => .outOfRange
  | _, _ => .outOfRange

/-- The counts section as the specification words it: the first indirect count, then
the first direct count, then the rule count (second count token) from the direct line
when it has one, otherwise from the indirect line when it has one, otherwise
nothing. -/
def countsSpec (directCounts indirectCounts : List (List Char)) : Option (List Char) :=
  match indirectCounts.head?, directCounts.head? with
  | some i0, some d0 =>
    let ruleCount : Option (List Char) :=
      match directCounts.tail.head? with
      | some r => some r
      | none => indirectCounts.tail.head?
    some ("||| ".toList ++ i0 ++ " ".toList ++ d0 ++
      (match ruleCount with
       | some r => " ".toList ++ r
       | none => []))
  | _, _ => none

/-- A whitespace tokenizer for examples: the tokens between blanks. -/
def blankTokens : List Char → List (List Char) :=
  fun s => FF.tokenizeAux s []

end Consolidate

/-! ## Auxiliary definitions used in the statements and proofs -/

namespace Moses2
namespace SCFG

/-- The `n` stacks allocated in a row from address `heap` on. -/
def newStacks (mgr : Manager) (heap n : Nat) : List Stack :=
  (List.range n).map fun k => ⟨mgr, heap + k⟩

/-- The rows `startPos, startPos+1, ...` of the chart built from address `heap`. -/
def rowsFrom (mgr : Manager) (size : Nat) : Nat → Nat → Nat → List (List Stack)
  | 0, _, _ => []
  | n + 1, startPos, heap =>
    newStacks mgr heap (size - startPos)
      :: rowsFrom mgr size n (startPos + 1) (heap + (size - startPos))

end SCFG
end Moses2

namespace Consolidate

/-- A field the round trip covers: no `'|'` and no `NUL` in it. -/
def cleanField (f : List Char) : Prop := '|' ∉ f ∧ NUL ∉ f

/-- The last statements of `splitLine`, on the state the loop returns. -/
def finishSplit (line : List Char) (r : Option (List (List Char) × Nat × Nat)) :
    Option (List (List Char)) :=
  match r with
  | none => none
  | some (item, start, i) =>
    match mkString line start i with
    | none => none
    | some s => some (item ++ [s])

end Consolidate

/-! ## Theorems -/

namespace Moses2
namespace SCFG

theorem newStacks_succ (mgr : Manager) (heap n : Nat) :
    newStacks mgr heap (n + 1) = ⟨mgr, heap⟩ :: newStacks mgr (heap + 1) n := by
  simp only [newStacks, List.range_succ_eq_map, List.map_cons, List.map_map, Nat.add_zero]
  congr 1
  apply List.map_congr_left
  intro k _
  simp [Nat.add_comm 1 k, Nat.add_assoc]

theorem innerLoop_eq (mgr : Manager) (size : Nat) :
    ∀ (n endPos : Nat) (inner : List Stack) (heap : Nat), size - endPos = n →
      Init.innerLoop mgr size endPos inner heap
        = (inner ++ newStacks mgr heap n, heap + n) := by
  intro n
  induction n with
  | zero =>
    intro endPos inner heap h
    rw [Init.innerLoop]
    have : ¬ endPos < size := by omega
    simp [this, newStacks]
  | succ n ih =>
    intro endPos inner heap h
    rw [Init.innerLoop]
    have : endPos < size := by omega
    simp only [this, if_true]
    rw [ih (endPos + 1) _ (heap + 1) (by omega), newStacks_succ]
    simp [Nat.add_assoc, Nat.add_comm 1 n]

theorem outerLoop_eq (mgr : Manager) (size : Nat) :
    ∀ (n startPos : Nat) (pre : List (List Stack)) (heap : Nat),
      size - startPos = n → pre.length = startPos →
      (Init.outerLoop mgr size startPos (pre ++ List.replicate n []) heap).1
        = pre ++ rowsFrom mgr size n startPos heap := by
  intro n
  induction n with
  | zero =>
    intro startPos pre heap h hp
    rw [Init.outerLoop]
    have : ¬ startPos < size := by omega
    simp [this, rowsFrom]
  | succ n ih =>
    intro startPos pre heap h hp
    rw [Init.outerLoop]
    have hlt : startPos < size := by omega
    simp only [hlt, if_true]
    rw [innerLoop_eq mgr size (size - startPos) startPos _ heap rfl]
    have hget : (pre ++ List.replicate (n + 1) ([] : List Stack)).getD startPos [] = [] := by
      rw [List.getD_eq_getElem?_getD, List.getElem?_append_right (by omega)]
      simp [hp, List.replicate_succ]
    have hset : (pre ++ List.replicate (n + 1) ([] : List Stack)).set startPos
          (newStacks mgr heap (size - startPos))
        = (pre ++ [newStacks mgr heap (size - startPos)]) ++ List.replicate n [] := by
      rw [List.set_append_right _ _ (by omega)]
      simp [hp, List.replicate_succ]
    simp only [hget, List.nil_append, hset]
    rw [ih (startPos + 1) _ _ (by omega) (by simp [hp])]
    simp [rowsFrom]

theorem Init_fresh_cells (heap : Nat) (mgr : Manager) (N : Nat) :
    (Stacks.fresh.Init heap mgr N).1.m_cells = rowsFrom mgr N N 0 heap := by
  have h := outerLoop_eq mgr N N 0 [] heap (by omega) rfl
  simpa [Stacks.Init, Stacks.fresh, resize] using h

theorem rowsFrom_length (mgr : Manager) (size : Nat) :
    ∀ n startPos heap, (rowsFrom mgr size n startPos heap).length = n := by
  intro n
  induction n with
  | zero => intros; rfl
  | succ n ih => intro s h; simp [rowsFrom, ih]

theorem newStacks_length (mgr : Manager) (heap n : Nat) : (newStacks mgr heap n).length = n := by
  simp [newStacks]

theorem rowsFrom_getD (mgr : Manager) (size : Nat) :
    ∀ n startPos heap r, r < n →
      ((rowsFrom mgr size n startPos heap).getD r []).length = size - (startPos + r) := by
  intro n
  induction n with
  | zero => intro s h r hr; omega
  | succ n ih =>
    intro s h r hr
    cases r with
    | zero => simp [rowsFrom, newStacks_length]
    | succ r =>
      simp only [rowsFrom, List.getD_cons_succ]
      rw [ih _ _ r (by omega)]
      omega

/-- Every stack of the rows has its address in `[heap, ...)`, rows are duplicate free. -/
theorem rowsFrom_addr_ge (mgr : Manager) (size : Nat) :
    ∀ n startPos heap, ∀ c ∈ (rowsFrom mgr size n startPos heap).flatten, heap ≤ c.addr := by
  intro n
  induction n with
  | zero => intro s h c hc; simp [rowsFrom] at hc
  | succ n ih =>
    intro s h c hc
    simp only [rowsFrom, List.flatten_cons, List.mem_append] at hc
    rcases hc with hc | hc
    · simp only [newStacks, List.mem_map, List.mem_range] at hc
      obtain ⟨k, _, rfl⟩ := hc
      simp
    · have := ih _ _ c hc
      omega

theorem newStacks_nodup (mgr : Manager) (heap n : Nat) : (newStacks mgr heap n).Nodup := by
  unfold newStacks
  refine (List.nodup_range n).map ?_
  intro a b h
  simp only [Stack.mk.injEq, true_and] at h
  omega

theorem rowsFrom_nodup (mgr : Manager) (size : Nat) :
    ∀ n startPos heap, (rowsFrom mgr size n startPos heap).flatten.Nodup := by
  intro n
  induction n with
  | zero => intro s h; simp [rowsFrom]
  | succ n ih =>
    intro s h
    simp only [rowsFrom, List.flatten_cons]
    rw [List.nodup_append]
    refine ⟨newStacks_nodup _ _ _, ih _ _, ?_⟩
    intro c hc1 hc2
    have h2 := rowsFrom_addr_ge mgr size n _ _ c hc2
    simp only [newStacks, List.mem_map, List.mem_range] at hc1
    obtain ⟨k, hk, rfl⟩ := hc1
    simp at h2
    omega

theorem rowsFrom_total (mgr : Manager) (size : Nat) :
    ∀ n startPos heap, startPos + n = size →
      2 * (rowsFrom mgr size n startPos heap).flatten.length = n * (n + 1) := by
  intro n
  induction n with
  | zero => intro s h _; simp [rowsFrom]
  | succ n ih =>
    intro s h hs
    simp only [rowsFrom, List.flatten_cons, List.length_append, newStacks_length]
    have key := ih (s + 1) (h + (size - s)) (by omega)
    have e : size - s = n + 1 := by omega
    have e2 : (n + 1) * (n + 1 + 1) = n * (n + 1) + 2 * (n + 1) := by ring
    rw [e2, ← key, e]
    ring

end SCFG
end Moses2

theorem flatten_nodup_index_inj {α : Type} (L : List (List α)) (h : L.flatten.Nodup)
    (r1 p1 r2 p2 : Nat) (c : α)
    (h1 : (L.getD r1 []).get? p1 = some c) (h2 : (L.getD r2 []).get? p2 = some c) :
    r1 = r2 ∧ p1 = p2 := by
  rw [List.nodup_flatten] at h
  obtain ⟨hrow, hpair⟩ := h
  have hr1 : r1 < L.length := by
    by_contra hcon
    rw [List.getD_eq_getElem?_getD, List.getElem?_eq_none (by omega)] at h1
    simp at h1
  have hr2 : r2 < L.length := by
    by_contra hcon
    rw [List.getD_eq_getElem?_getD, List.getElem?_eq_none (by omega)] at h2
    simp at h2
  have e1 : L.getD r1 [] = L[r1] := by
    rw [List.getD_eq_getElem?_getD, List.getElem?_eq_getElem hr1]; rfl
  have e2 : L.getD r2 [] = L[r2] := by
    rw [List.getD_eq_getElem?_getD, List.getElem?_eq_getElem hr2]; rfl
  rw [e1] at h1
  rw [e2] at h2
  have m1 : c ∈ L[r1] := List.get?_mem h1
  have m2 : c ∈ L[r2] := List.get?_mem h2
  have hrr : r1 = r2 := by
    by_contra hne
    rw [List.pairwise_iff_getElem] at hpair
    rcases Nat.lt_or_gt_of_ne hne with hlt | hgt
    · exact hpair r1 r2 hr1 hr2 hlt m1 m2
    · exact hpair r2 r1 hr2 hr1 hgt m2 m1
  subst hrr
  refine ⟨rfl, ?_⟩
  have hn : (L[r1]).Nodup := hrow _ (List.getElem_mem _)
  rw [List.get?_eq_getElem?] at h1 h2
  obtain ⟨hp1, hc1⟩ := List.getElem?_eq_some_iff.mp h1
  obtain ⟨hp2, hc2⟩ := List.getElem?_eq_some_iff.mp h2
  exact (List.Nodup.getElem_inj_iff hn).mp (hc1.trans hc2.symm)

namespace Moses2
namespace SCFG

/-- C6. After `Stacks::Init(mgr, N)` on a freshly constructed `Stacks`, `m_cells` has
exactly `N` rows, row `start` holds exactly `N - start` cells, a cell is stored at row
`start`, position `end - start` exactly for the pairs `start <= end < N`, distinct
pairs hold distinct cells, and there are `N*(N+1)/2` cells in total. -/
theorem Stacks_Init_triangle (heap : Nat) (mgr : Manager) (N : Nat) :
    (Stacks.fresh.Init heap mgr N).1.m_cells.length = N ∧
    (∀ start, start < N →
      ((Stacks.fresh.Init heap mgr N).1.m_cells.getD start []).length = N - start) ∧
    (∀ start stop, start ≤ stop →
      (((Stacks.fresh.Init heap mgr N).1.cell start stop).isSome ↔ stop < N)) ∧
    (∀ s1 e1 s2 e2, s1 ≤ e1 → e1 < N → s2 ≤ e2 → e2 < N →
      (Stacks.fresh.Init heap mgr N).1.cell s1 e1 = (Stacks.fresh.Init heap mgr N).1.cell s2 e2 →
      s1 = s2 ∧ e1 = e2) ∧
    (Stacks.fresh.Init heap mgr N).1.m_cells.flatten.length = N * (N + 1) / 2 := by
  have hlen : ∀ start, start < N →
      ((rowsFrom mgr N N 0 heap).getD start []).length = N - start := by
    intro start hs
    have := rowsFrom_getD mgr N N 0 heap start hs
    simpa using this
  have hsome : ∀ start stop, start ≤ stop →
      ((((rowsFrom mgr N N 0 heap).getD start []).get? (stop - start)).isSome ↔ stop < N) := by
    intro start stop hle
    rw [List.get?_eq_getElem?, Option.isSome_iff_exists]
    constructor
    · rintro ⟨c, hc⟩
      obtain ⟨hp, _⟩ := List.getElem?_eq_some_iff.mp hc
      by_cases hs : start < N
      · rw [hlen start hs] at hp; omega
      · rw [List.getD_eq_getElem?_getD, List.getElem?_eq_none
          (by rw [rowsFrom_length]; omega)] at hp
        simp at hp
    · intro hlt
      have hp : stop - start < ((rowsFrom mgr N N 0 heap).getD start []).length := by
        rw [hlen start (by omega)]; omega
      exact ⟨_, List.getElem?_eq_getElem hp⟩
  refine ⟨?_, ?_, ?_, ?_, ?_⟩
  · rw [Init_fresh_cells, rowsFrom_length]
  · intro start hs
    rw [Init_fresh_cells]
    exact hlen start hs
  · intro start stop hle
    unfold Stacks.cell
    rw [Init_fresh_cells]
    exact hsome start stop hle
  · intro s1 e1 s2 e2 h1 h1N h2 h2N heq
    unfold Stacks.cell at heq
    rw [Init_fresh_cells] at heq
    obtain ⟨c, hc⟩ := Option.isSome_iff_exists.mp ((hsome s1 e1 h1).mpr h1N)
    have hc2 := heq.symm.trans hc
    have := flatten_nodup_index_inj _ (rowsFrom_nodup mgr N N 0 heap) s1 (e1 - s1) s2 (e2 - s2) c
      hc hc2
    omega
  · rw [Init_fresh_cells]
    have := rowsFrom_total mgr N N 0 heap (by omega)
    omega

/-- C6, at the sentence length 3: three rows, six cells. -/
theorem Stacks_Init_triangle_witness :
    (Stacks.fresh.Init 0 ⟨0⟩ 3).1.m_cells.length = 3 ∧
    (Stacks.fresh.Init 0 ⟨0⟩ 3).1.m_cells.flatten.length = 3 * (3 + 1) / 2 :=
  ⟨(Stacks_Init_triangle 0 ⟨0⟩ 3).1, (Stacks_Init_triangle 0 ⟨0⟩ 3).2.2.2.2⟩

end SCFG
end Moses2

namespace Moses2
namespace TargetPhrases

variable {α : Type}

/-- What a sequence of in-bounds adds does to an object: the capacity stays, the write
index advances by the number of adds, the slots below the old write index keep their
content and the slots from there on hold the added phrases in order. -/
theorem addAll_spec (ps : List α) :
    ∀ (s : TargetPhrases α), s.m_currInd + ps.length ≤ s.m_coll.length →
      ∃ t, s.addAll ps = some t ∧ t.m_coll.length = s.m_coll.length ∧
        t.m_currInd = s.m_currInd + ps.length ∧
        (∀ i, i < s.m_currInd → t.m_coll.get? i = s.m_coll.get? i) ∧
        (∀ i, i < ps.length → t.m_coll.get? (s.m_currInd + i) = (ps.get? i).map some) := by
  induction ps with
  | nil =>
    intro s _
    exact ⟨s, rfl, rfl, rfl, fun _ _ => rfl, fun i hi => by simp at hi⟩
  | cons p ps ih =>
    intro s hs
    simp only [List.length_cons] at hs
    have hlt : s.m_currInd < s.m_coll.length := by omega
    obtain ⟨t, ht, hlen, hind, hlow, hnew⟩ :=
      ih ⟨s.m_coll.set s.m_currInd (some p), s.m_currInd + 1⟩
        (by simp only [List.length_set]; omega)
    simp only [List.length_set] at hlen hind hlow hnew
    refine ⟨t, ?_, ?_, ?_, ?_, ?_⟩
    · simp [addAll, AddTargetPhrase, hlt, ht]
    · exact hlen
    · simp only [List.length_cons]; rw [hind]; omega
    · intro i hi
      rw [hlow i (by omega)]
      simp only [List.get?_eq_getElem?]
      rw [List.getElem?_set_ne (by omega)]
    · intro i hi
      cases i with
      | zero =>
        rw [Nat.add_zero, hlow _ (by omega)]
        simp only [List.get?_eq_getElem?]
        rw [List.getElem?_set_self hlt]
        simp
      | succ i =>
        simp only [List.length_cons] at hi
        have := hnew i (by omega)
        rw [show s.m_currInd + (i + 1) = s.m_currInd + 1 + i by omega, this]
        simp

/-- C7. On a `TargetPhrases` constructed with capacity `n`, for every sequence `ps` of
`k <= n` phrases and every `j <= k`: the first `j` calls of `AddTargetPhrase` all
write in bounds (the object `s` after them exists), `GetSize()` is still `n`, and
`operator[](i)` is the `i`-th phrase added for every `i < j`. Taken at `j` and at a
later `j`, this says that later adds leave earlier elements as they were. -/
theorem addTargetPhrase_sequence (n : Nat) (ps : List α) (hk : ps.length ≤ n)
    (j : Nat) (hj : j ≤ ps.length) :
    ∃ s, (construct n : TargetPhrases α).addAll (ps.take j) = some s ∧
      s.GetSize = n ∧ ∀ i, i < j → s.get i = ps.get? i ∧ (ps.get? i).isSome := by
  have hl : (ps.take j).length = j := by simp [hj]
  obtain ⟨t, ht, hlen, _, _, hnew⟩ := addAll_spec (ps.take j) (construct n : TargetPhrases α)
    (by simp only [construct, List.length_replicate, hl]; omega)
  refine ⟨t, ht, ?_, ?_⟩
  · simpa [GetSize, construct] using hlen
  · intro i hi
    have h1 := hnew i (by omega)
    simp only [construct, Nat.zero_add] at h1
    have h2 : (ps.take j).get? i = ps.get? i := by
      simp only [List.get?_eq_getElem?]
      rw [List.getElem?_take_of_lt hi]
    have h3 : i < ps.length := by omega
    unfold get
    rw [h1, h2, List.get?_eq_get h3]
    simp

/-- C7, at the capacity 2 with the phrases 10 and 20. -/
theorem addTargetPhrase_sequence_witness :
    ∃ s, (construct 2 : TargetPhrases Nat).addAll ([10, 20].take 2) = some s ∧
      s.GetSize = 2 ∧ ∀ i, i < 2 → s.get i = [10, 20].get? i ∧ ([10, 20].get? i).isSome :=
  addTargetPhrase_sequence 2 [10, 20] (by decide) 2 (by decide)

end TargetPhrases
end Moses2

namespace FF

/-- The statements of `Create` never hand an instance to the caller: whatever they
do, the call ends in an exception or in undefined behaviour. -/
theorem Create_not_ok (rd : LineReader) (self : FeatureFunctions) (line : String) :
    (∃ e, self.Create rd line = .exception e) ∨ self.Create rd line = .undefinedBehaviour := by
  unfold FeatureFunctions.Create
  cases self.CreateBody rd line with
  | ok r => exact Or.inr rfl
  | exception e => exact Or.inl ⟨e, rfl⟩
  | undefinedBehaviour => exact Or.inr rfl

/-- With a spec line to create, `LoadFeatureFunctions` ends in its creation loop, in
an exception or in undefined behaviour, before any `Load` call. -/
theorem Load_not_ok (rd : LineReader) (self : FeatureFunctions) (line : String)
    (rest : List String) :
    (∃ e, self.LoadFeatureFunctions rd (some (line :: rest)) = .exception e) ∨
      self.LoadFeatureFunctions rd (some (line :: rest)) = .undefinedBehaviour := by
  rcases Create_not_ok rd self line with ⟨e, he⟩ | hu
  · exact Or.inl ⟨e, by
      simp [FeatureFunctions.LoadFeatureFunctions, FeatureFunctions.createLoop, he]⟩
  · exact Or.inr (by
      simp [FeatureFunctions.LoadFeatureFunctions, FeatureFunctions.createLoop, hu])

theorem loadNonPT_eq (l : List FeatureFunction) :
    ∀ loads, FeatureFunctions.loadNonPT l loads = loads ++ l.filter (fun ff => !ff.isPhraseTable) := by
  induction l with
  | nil => intro loads; simp [FeatureFunctions.loadNonPT]
  | cons ff rest ih =>
    intro loads
    by_cases h : ff.isPhraseTable <;> simp [FeatureFunctions.loadNonPT, h, ih]

theorem loadPT_eq (l : List FeatureFunction) :
    ∀ loads, FeatureFunctions.loadPT l loads = loads ++ l := by
  induction l with
  | nil => intro loads; simp [FeatureFunctions.loadPT]
  | cons ff rest ih => intro loads; simp [FeatureFunctions.loadPT, ih]

theorem partition_perm (l : List FeatureFunction) :
    (l.filter (fun ff => !ff.isPhraseTable) ++ l.filter (fun ff => ff.isPhraseTable)).Perm l := by
  refine List.Perm.trans List.perm_append_comm ?_
  exact List.filter_append_perm (fun ff => ff.isPhraseTable) l

/-- C1 (the code at the failing input). For the two spec lines
`PhraseDictionaryMemory`, `PhraseDictionaryMemory`, each declaring one score, on a
fresh registry: the statements of the first `Create` build the first phrase table with
start offset 0 and advance `m_ffStartInd` to 1; `Create` then reaches its end without
a `return`, so the call is undefined behaviour, and `LoadFeatureFunctions` is undefined
behaviour with it. No second instance is handed the offset 1. -/
theorem LoadFeatureFunctions_second_offset_undefined :
    FeatureFunctions.fresh.CreateBody oneScoreReader "PhraseDictionaryMemory"
      = .ok (⟨true, false, 0, 1, "PhraseDictionaryMemory"⟩, ⟨[], [], [], 1⟩) ∧
    FeatureFunctions.fresh.Create oneScoreReader "PhraseDictionaryMemory"
      = .undefinedBehaviour ∧
    FeatureFunctions.fresh.LoadFeatureFunctions oneScoreReader
        (some ["PhraseDictionaryMemory", "PhraseDictionaryMemory"]) = .undefinedBehaviour := by
  refine ⟨by decide, by decide, by decide⟩

/-- C2 (the code on an unrecognised name). For every spec line whose first token
is not `PhraseDictionaryMemory`, `Create` does not throw: it reads the uninitialised
pointer `ret`, which is undefined behaviour, and `LoadFeatureFunctions` on a list
that begins with such a line ends the same way. -/
theorem Create_unrecognized_name (rd : LineReader) (self : FeatureFunctions) (line : String)
    (tok0 : String) (toks : List String) (ht : Tokenize line = tok0 :: toks)
    (hname : tok0 ≠ "PhraseDictionaryMemory") (rest : List String) :
    self.Create rd line = .undefinedBehaviour ∧
    (∀ e, self.Create rd line ≠ .exception e) ∧
    self.LoadFeatureFunctions rd (some (line :: rest)) = .undefinedBehaviour := by
  have hc : self.Create rd line = .undefinedBehaviour := by
    simp [FeatureFunctions.Create, FeatureFunctions.CreateBody, ht, hname]
  refine ⟨hc, ?_, ?_⟩
  · intro e; rw [hc]; exact fun h => by cases h
  · simp [FeatureFunctions.LoadFeatureFunctions, FeatureFunctions.createLoop, hc]

/-- C2, at the line `Distortion`. -/
theorem Create_unrecognized_name_witness :
    FeatureFunctions.fresh.Create oneScoreReader "Distortion" = .undefinedBehaviour ∧
    (∀ e, FeatureFunctions.fresh.Create oneScoreReader "Distortion" ≠ .exception e) ∧
    FeatureFunctions.fresh.LoadFeatureFunctions oneScoreReader (some ("Distortion" :: []))
      = .undefinedBehaviour :=
  Create_unrecognized_name oneScoreReader FeatureFunctions.fresh "Distortion" "Distortion" []
    (by decide) (by decide) []

theorem findLoop_none (l : List FeatureFunction) (name : String) :
    FeatureFunctions.findLoop l name = none ↔ ∀ g ∈ l, g.GetName ≠ name := by
  induction l with
  | nil => simp [FeatureFunctions.findLoop]
  | cons ff rest ih =>
    by_cases h : ff.GetName = name
    · simp [FeatureFunctions.findLoop, h]
    · simp [FeatureFunctions.findLoop, h, ih]

theorem findLoop_some (l : List FeatureFunction) (name : String) (ff : FeatureFunction) :
    FeatureFunctions.findLoop l name = some ff ↔
      ∃ pre post, l = pre ++ ff :: post ∧ ff.GetName = name ∧ ∀ g ∈ pre, g.GetName ≠ name := by
  induction l with
  | nil => simp [FeatureFunctions.findLoop]
  | cons f rest ih =>
    by_cases h : f.GetName = name
    · simp only [FeatureFunctions.findLoop, h, if_true, Option.some.injEq]
      constructor
      · rintro rfl
        exact ⟨[], rest, rfl, h, by simp⟩
      · rintro ⟨pre, post, hl, hn, hpre⟩
        cases pre with
        | nil => simp only [List.nil_append, List.cons.injEq] at hl; exact hl.1
        | cons p pre =>
          simp only [List.cons_append, List.cons.injEq] at hl
          exact absurd (hl.1 ▸ h) (hpre p (List.mem_cons_self _ _))
    · simp only [FeatureFunctions.findLoop, h, if_false, ih]
      constructor
      · rintro ⟨pre, post, hl, hn, hpre⟩
        refine ⟨f :: pre, post, by simp [hl], hn, ?_⟩
        intro g hg
        rcases List.mem_cons.mp hg with rfl | hg
        · exact h
        · exact hpre g hg
      · rintro ⟨pre, post, hl, hn, hpre⟩
        cases pre with
        | nil =>
          simp only [List.nil_append, List.cons.injEq] at hl
          exact absurd (hl.1 ▸ hn) h
        | cons p pre =>
          simp only [List.cons_append, List.cons.injEq] at hl
          exact ⟨pre, post, hl.2, hn, fun g hg => hpre g (List.mem_cons_of_mem _ hg)⟩

/-- C3. `FindFeatureFunction` leaves the registry as it was; it returns `ff` exactly
when `ff` is the first registered function, in registration order, whose `GetName()`
is `name`; and it throws (the not-found error) exactly when no registered function has
that name. -/
theorem FindFeatureFunction_first_match (self : FeatureFunctions) (name : String) :
    (self.FindFeatureFunction name).2 = self ∧
    (∀ ff, (self.FindFeatureFunction name).1 = .ok ff ↔
      ∃ pre post, self.m_featureFunctions = pre ++ ff :: post ∧ ff.GetName = name ∧
        ∀ g ∈ pre, g.GetName ≠ name) ∧
    ((self.FindFeatureFunction name).1 = .exception (name ++ " not found") ↔
      ∀ g ∈ self.m_featureFunctions, g.GetName ≠ name) ∧
    ((∃ ff, (self.FindFeatureFunction name).1 = .ok ff) ↔
      ∃ g ∈ self.m_featureFunctions, g.GetName = name) := by
  unfold FeatureFunctions.FindFeatureFunction
  cases hf : FeatureFunctions.findLoop self.m_featureFunctions name with
  | none =>
    have hn := (findLoop_none _ _).mp hf
    refine ⟨rfl, ?_, ?_, ?_⟩
    · intro ff
      simp only [false_iff, reduceCtorEq]
      rintro ⟨pre, post, hl, hname, _⟩
      exact hn ff (by rw [hl]; simp) hname
    · simpa using hn
    · simp only [reduceCtorEq, exists_false, false_iff]
      rintro ⟨g, hg, hname⟩
      exact hn g hg hname
  | some f =>
    obtain ⟨pre, post, hl, hname, hpre⟩ := (findLoop_some _ _ _).mp hf
    refine ⟨rfl, ?_, ?_, ?_⟩
    · intro ff
      simp only [Result.ok.injEq]
      constructor
      · rintro rfl; exact ⟨pre, post, hl, hname, hpre⟩
      · intro h
        have := (findLoop_some _ _ _).mpr h
        rw [hf] at this
        exact Option.some.inj this
    · simp only [reduceCtorEq, false_iff]
      intro hall
      exact hall f (by rw [hl]; simp) hname
    · simp only [Result.ok.injEq, exists_eq', true_iff]
      exact ⟨f, by rw [hl]; simp, hname⟩

/-- C3, on a registry of two functions both named `pt`. -/
theorem FindFeatureFunction_first_match_witness :
    (FeatureFunctions.FindFeatureFunction
      ⟨[⟨true, false, 0, 1, "pt"⟩, ⟨true, false, 2, 3, "pt"⟩], [], [], 8⟩ "pt").1
      = .ok ⟨true, false, 0, 1, "pt"⟩ :=
  ((FindFeatureFunction_first_match
      ⟨[⟨true, false, 0, 1, "pt"⟩, ⟨true, false, 2, 3, "pt"⟩], [], [], 8⟩ "pt").2.1
    ⟨true, false, 0, 1, "pt"⟩).mpr
    ⟨[], [⟨true, false, 2, 3, "pt"⟩], rfl, rfl, by simp⟩

/-- C4 (the code at the failing input). For the one spec line
`PhraseDictionaryMemory` on a fresh registry `LoadFeatureFunctions` is undefined
behaviour: `Create` reaches its end without a `return`, and the call never comes to
its `Load` loops. The same holds for every reader, registry and list of at least one
spec line: the call ends in an exception or in undefined behaviour, so no sequence of
`Load` calls is made in defined behaviour. The two `Load` loops themselves, run on a
registry `l` with its phrase tables as `m_phraseTables`, call `Load` on the functions
that are not phrase tables and then on the phrase tables, a rearrangement of `l`. -/
theorem LoadFeatureFunctions_no_load_calls :
    FeatureFunctions.fresh.LoadFeatureFunctions oneScoreReader
        (some ["PhraseDictionaryMemory"]) = .undefinedBehaviour ∧
    (∀ (rd : LineReader) (self : FeatureFunctions) (line : String) (rest : List String),
      (∃ e, self.LoadFeatureFunctions rd (some (line :: rest)) = .exception e) ∨
        self.LoadFeatureFunctions rd (some (line :: rest)) = .undefinedBehaviour) ∧
    (∀ l : List FeatureFunction,
      FeatureFunctions.loadPT (l.filter fun ff => ff.isPhraseTable)
          (FeatureFunctions.loadNonPT l [])
        = l.filter (fun ff => !ff.isPhraseTable) ++ l.filter (fun ff => ff.isPhraseTable) ∧
      (FeatureFunctions.loadPT (l.filter fun ff => ff.isPhraseTable)
          (FeatureFunctions.loadNonPT l [])).Perm l) := by
  refine ⟨by decide, Load_not_ok, ?_⟩
  intro l
  have h : FeatureFunctions.loadPT (l.filter fun ff => ff.isPhraseTable)
        (FeatureFunctions.loadNonPT l [])
      = l.filter (fun ff => !ff.isPhraseTable) ++ l.filter (fun ff => ff.isPhraseTable) := by
    rw [loadNonPT_eq, loadPT_eq]; simp
  exact ⟨h, h ▸ partition_perm l⟩

/-- C5 (the code at the failing input). For the two spec lines
`PhraseDictionaryMemory a`, `PhraseDictionaryMemory b` on a fresh registry
`LoadFeatureFunctions` is undefined behaviour, and nothing was registered when the
first `Create` reached its end without a `return`: its statements built one phrase
table, with the range starting at 0, and no second range is assigned. For every
reader, registry and line `Create` ends in an exception or in undefined behaviour. -/
theorem LoadFeatureFunctions_second_range_undefined :
    FeatureFunctions.fresh.LoadFeatureFunctions oneScoreReader
        (some ["PhraseDictionaryMemory a", "PhraseDictionaryMemory b"])
      = .undefinedBehaviour ∧
    FeatureFunctions.fresh.CreateBody oneScoreReader "PhraseDictionaryMemory a"
      = .ok (⟨true, false, 0, 1, "PhraseDictionaryMemory a"⟩, ⟨[], [], [], 1⟩) ∧
    (∀ (rd : LineReader) (self : FeatureFunctions) (line : String),
      (∃ e, self.Create rd line = .exception e) ∨ self.Create rd line = .undefinedBehaviour) := by
  refine ⟨by decide, by decide, Create_not_ok⟩

end FF

namespace Moses

/-- C8 (the code at the failing input). In predict mode, with a handle `h` free in
the pool and `n` handles checked out: for the empty translation option list the call
returns with `n + 1` handles checked out and `h` no longer in the pool (the handle it
acquired is not released: the function returns before the `Release`), while for a
list that is not empty it returns with `n` handles checked out and `free.length`
unchanged. -/
theorem VW_empty_list_leaks_handle {Cl Sc Sb : Type} (env : VWEnv Cl Sc Sb)
    (trainer : Option Cl) (h : Cl) (free : List Cl) (n : Nat) (input : Nat) :
    (VW.EvaluateTranslationOptionListWithSourceContext env
        ⟨false, trainer, some ⟨h :: free, n⟩⟩ input []
      = some (⟨false, trainer, some ⟨free, n + 1⟩⟩, [])) ∧
    (VW.handlesOut (⟨false, trainer, some ⟨free, n + 1⟩⟩ : VW Cl) = n + 1) ∧
    (∀ (opt : TranslationOption Sb) (opts : List (TranslationOption Sb)),
      ∃ s out, VW.EvaluateTranslationOptionListWithSourceContext env
          ⟨false, trainer, some ⟨h :: free, n⟩⟩ input (opt :: opts) = some (s, out) ∧
        s.handlesOut = n ∧
        (s.m_predictorFactory.map fun p => p.free.length) = some (h :: free).length) := by
  refine ⟨?_, rfl, ?_⟩
  · simp [VW.EvaluateTranslationOptionListWithSourceContext, VWPredictorFactory.Acquire]
  · intro opt opts
    simp [VW.EvaluateTranslationOptionListWithSourceContext, VWPredictorFactory.Acquire,
      VWPredictorFactory.Release, VW.handlesOut]

end Moses

namespace Consolidate

theorem writeCounts_eq_countsSpec (directCounts indirectCounts : List (List Char)) :
    writeCounts directCounts indirectCounts = countsSpec directCounts indirectCounts := by
  cases indirectCounts with
  | nil => simp [writeCounts, countsSpec]
  | cons i0 it =>
    cases directCounts with
    | nil => simp [writeCounts, countsSpec]
    | cons d0 dt =>
      cases dt with
      | cons d1 dt2 => simp [writeCounts, countsSpec]
      | nil =>
        cases it with
        | cons i1 it2 => simp [writeCounts, countsSpec]
        | nil => simp [writeCounts, countsSpec]

/-- C9. For a direct line `d0 ||| d1 ||| d2 ||| d3 ||| d4 ...` and an indirect line
`d0 ||| d1 ||| i2 ||| i3 ||| i4 ...` (matching phrases, at least five fields) whose
count fields `d4` and `i4` both hold a token, the loop body of `processFiles` writes the
phrase pair, the probabilities and the alignment, then a counts section, then the end
of line; the counts section is `"||| "`, the first indirect count, a blank, the first
direct count, and then a blank and the second direct count when the direct line has
one, otherwise a blank and the second indirect count when the indirect line has one,
otherwise nothing. -/
theorem processPair_counts (tokenize : List Char → List (List Char)) (flags : Flags)
    (d0 d1 d2 d3 d4 i2 i3 i4 : List Char) (restD restI : List (List Char))
    (hd : tokenize d4 ≠ []) (hi : tokenize i4 ≠ []) :
    ∃ head counts,
      processPair tokenize flags (d0 :: d1 :: d2 :: d3 :: d4 :: restD)
          (d0 :: d1 :: i2 :: i3 :: i4 :: restI)
        = .written (head ++ counts ++ [Char.ofNat 10]) ∧
      head = d0 ++ SEP ++ d1 ++ SEP ++ (if flags.onlyDirectFlag then [] else i2) ++ [' '] ++ d2
          ++ (if flags.phraseCountFlag then
                [' '] ++ (if flags.logProbFlag then ['1'] else ['2', '.', '7', '1', '8'])
              else [])
          ++ SEP ++ d3 ∧
      countsSpec (tokenize d4) (tokenize i4) = some counts ∧
      counts = ['|', '|', '|', ' '] ++ (tokenize i4).headI ++ [' '] ++ (tokenize d4).headI ++
        (match (tokenize d4).get? 1, (tokenize i4).get? 1 with
         | some r, _ => ' ' :: r
         | none, some r => ' ' :: r
         | none, none => []) := by
  obtain ⟨dc0, dct, hdc⟩ := List.exists_cons_of_ne_nil hd
  obtain ⟨ic0, ict, hic⟩ := List.exists_cons_of_ne_nil hi
  have hw := writeCounts_eq_countsSpec (tokenize d4) (tokenize i4)
  have hsome : ∃ counts, countsSpec (tokenize d4) (tokenize i4) = some counts := by
    rw [hdc, hic]; exact ⟨_, rfl⟩
  obtain ⟨counts, hcounts⟩ := hsome
  refine ⟨_, counts, ?_, rfl, hcounts, ?_⟩
  · cases hf1 : flags.onlyDirectFlag <;> cases hf2 : flags.phraseCountFlag <;>
      cases hf3 : flags.logProbFlag <;>
      simp [processPair, hw, hcounts, SEP, hf1, hf2, hf3]
  · rw [hdc, hic] at hcounts
    rw [hdc, hic]
    cases dct with
    | cons d1' dt2 =>
      simp only [countsSpec, List.head?_cons, List.tail_cons, Option.some.injEq] at hcounts
      simp [← hcounts]
    | nil =>
      cases ict with
      | cons i1' it2 =>
        simp only [countsSpec, List.head?_cons, List.tail_cons, List.head?_nil,
          Option.some.injEq] at hcounts
        simp [← hcounts]
      | nil =>
        simp only [countsSpec, List.head?_cons, List.tail_cons, List.head?_nil,
          Option.some.injEq] at hcounts
        simp [← hcounts]

/-- C9, at the direct line `a ||| b ||| 3 ||| 0 ||| 5 7` and the indirect line
`a ||| b ||| 4 ||| 0 ||| 6`: the counts section is `||| 6 5 7`. -/
theorem processPair_counts_witness :
    blankTokens ['5', ' ', '7'] ≠ [] ∧ blankTokens ['6'] ≠ [] ∧
    ∃ head counts,
      processPair blankTokens ⟨false, true, false⟩
          (['a'] :: ['b'] :: ['3'] :: ['0'] :: ['5', ' ', '7'] :: [])
          (['a'] :: ['b'] :: ['4'] :: ['0'] :: ['6'] :: [])
        = .written (head ++ counts ++ [Char.ofNat 10]) ∧
      countsSpec (blankTokens ['5', ' ', '7']) (blankTokens ['6']) = some counts :=
  ⟨by decide, by decide,
    (processPair_counts blankTokens ⟨false, true, false⟩ ['a'] ['b'] ['3'] ['0']
      ['5', ' ', '7'] ['4'] ['0'] ['6'] [] [] (by decide) (by decide)).elim
      fun head hh => hh.elim fun counts hc => ⟨head, counts, hc.1, hc.2.2.1⟩⟩


end Consolidate

namespace Consolidate

theorem getq_append_add (pre xs : List Char) (k : Nat) :
    (pre ++ xs).get? (pre.length + k) = xs.get? k := by
  simp only [List.get?_eq_getElem?]
  rw [List.getElem?_append_right (by omega)]
  congr 1
  omega

theorem getq_append_len (pre xs : List Char) :
    (pre ++ xs).get? pre.length = xs.get? 0 := by
  simpa using getq_append_add pre xs 0

/-- On a character that is not `NUL`, followed by a character that is not `'|'`, the
loop moves one position forward. -/
theorem splitLoop_step (pre rest : List Char) (c c1 : Char) (fuel start : Nat)
    (item : List (List Char)) (hc : c ≠ NUL) (hc1 : c1 ≠ '|') :
    splitLoop (pre ++ c :: c1 :: rest) (fuel + 1) start pre.length item
      = splitLoop (pre ++ c :: c1 :: rest) fuel start (pre.length + 1) item := by
  have h0 : (pre ++ c :: c1 :: rest).get? pre.length = some c := by
    rw [getq_append_len]; rfl
  have h1 : (pre ++ c :: c1 :: rest).get? (pre.length + 1) = some c1 := by
    rw [getq_append_add]; rfl
  have hsep : separatorAt (pre ++ c :: c1 :: rest) pre.length = some false := by
    unfold separatorAt
    rw [h0, h1]
    by_cases hsp : c = ' ' <;> simp [hsp, hc1]
  rw [splitLoop, h0]
  simp only [hc, if_false, hsep]

/-- Scanning the characters of a field: the loop reaches the end of the field with
`start` and `item` as they were. -/
theorem splitLoop_scan (g : List Char) (hg : cleanField g) :
    ∀ (pre tail : List Char) (c0 : Char) (fuel start : Nat) (item : List (List Char)),
      c0 ≠ '|' →
      splitLoop (pre ++ (g ++ c0 :: tail)) (fuel + g.length) start pre.length item
        = splitLoop (pre ++ (g ++ c0 :: tail)) fuel start (pre.length + g.length) item := by
  induction g with
  | nil => intro pre tail c0 fuel start item _; rfl
  | cons c g ih =>
    intro pre tail c0 fuel start item hc0
    have hcl : cleanField g := ⟨fun h => hg.1 (List.mem_cons_of_mem _ h),
      fun h => hg.2 (List.mem_cons_of_mem _ h)⟩
    have hcN : c ≠ NUL := fun h => hg.2 (h ▸ List.mem_cons_self _ _)
    obtain ⟨c1, rest, hrest, hc1⟩ : ∃ c1 rest, g ++ c0 :: tail = c1 :: rest ∧ c1 ≠ '|' := by
      cases g with
      | nil => exact ⟨c0, tail, rfl, hc0⟩
      | cons d g' =>
        exact ⟨d, g' ++ c0 :: tail, rfl,
          fun h => hg.1 (h ▸ List.mem_cons_of_mem _ (List.mem_cons_self _ _))⟩
    have e1 : fuel + (c :: g).length = (fuel + g.length) + 1 := by simp; omega
    rw [e1, List.cons_append, hrest, splitLoop_step pre rest c c1 _ start item hcN hc1, ← hrest]
    have e2 : pre ++ c :: (g ++ c0 :: tail) = (pre ++ [c]) ++ (g ++ c0 :: tail) := by simp
    have e3 : pre.length + 1 = (pre ++ [c]).length := by simp
    rw [e2, e3, ih hcl (pre ++ [c]) tail c0 fuel start item hc0]
    simp only [List.length_append, List.length_cons, List.length_nil]
    congr 1
    omega

/-- At the terminator the loop stops. -/
theorem splitLoop_nul (pre tail : List Char) (fuel start : Nat) (item : List (List Char)) :
    splitLoop (pre ++ NUL :: tail) (fuel + 1) start pre.length item
      = some (item, start, pre.length) := by
  have h0 : (pre ++ NUL :: tail).get? pre.length = some NUL := by
    rw [getq_append_len]; rfl
  rw [splitLoop, h0]
  simp

/-- At a separator that follows a field beginning at `start`, the loop stores the
field and continues behind the separator, one position before the new `start`. -/
theorem splitLoop_sep (pre tail : List Char) (fuel start : Nat) (item : List (List Char))
    (hs : start ≤ pre.length) :
    splitLoop (pre ++ (SEP ++ tail)) (fuel + 1) start pre.length item
      = splitLoop (pre ++ (SEP ++ tail)) fuel (pre.length + 5) (pre.length + 3 + 1)
          (item ++ [(pre.drop start)]) := by
  have hget : ∀ k, (pre ++ (SEP ++ tail)).get? (pre.length + k) = (SEP ++ tail).get? k :=
    fun k => getq_append_add pre _ k
  have h0 : (pre ++ (SEP ++ tail)).get? pre.length = some ' ' := by
    rw [getq_append_len]; rfl
  have hsep : separatorAt (pre ++ (SEP ++ tail)) pre.length = some true := by
    unfold separatorAt
    rw [h0, hget 1, hget 2, hget 3, hget 4]
    simp [SEP]
  have hnul : (' ' : Char) ≠ NUL := by decide
  have hmk : mkString (pre ++ (SEP ++ tail)) start pre.length = some (pre.drop start) := by
    unfold mkString
    have : start ≤ pre.length ∧ pre.length ≤ (pre ++ (SEP ++ tail)).length := by
      refine ⟨hs, ?_⟩; simp
    rw [if_pos this]
    congr 1
    rw [List.drop_append_of_le_length hs, List.take_append_of_le_length (by simp)]
    rw [List.take_of_length_le (by simp)]
  rw [splitLoop, h0]
  simp only [hnul, if_false, hsep]
  have hgt : ¬ start > pre.length := by omega
  simp only [hgt, if_false, hmk]

end Consolidate

namespace Consolidate

theorem splitLine_eq_finish (line : List Char) :
    splitLine line = finishSplit line (splitLoop line line.length 0 0 []) := by
  unfold splitLine finishSplit
  rfl

theorem joinFields_cons_cons (f g : List Char) (rest : List (List Char)) :
    joinFields (f :: g :: rest) = f ++ (SEP ++ joinFields (g :: rest)) := by
  simp [joinFields]

theorem joined_head (g : List Char) (rest : List (List Char))
    (h : ∀ x ∈ g :: rest, cleanField x) :
    ∃ c1 t, joinFields (g :: rest) ++ [NUL] = c1 :: t ∧ c1 ≠ '|' := by
  cases g with
  | cons d g' =>
    refine ⟨d, (g' ++ (match rest with | [] => [] | r :: rs => SEP ++ joinFields (r :: rs)))
      ++ [NUL], ?_, ?_⟩
    · cases rest <;> simp [joinFields]
    · exact fun hd => (h _ (List.mem_cons_self _ _)).1 (hd ▸ List.mem_cons_self _ _)
  | nil =>
    cases rest with
    | nil => exact ⟨NUL, [], rfl, by decide⟩
    | cons r rs =>
      exact ⟨' ', ['|', '|', '|', ' '] ++ joinFields (r :: rs) ++ [NUL],
        by simp [joinFields, SEP], by decide⟩

theorem splitLoop_fields (fields : List (List Char)) :
    ∀ (f : List Char), (∀ x ∈ f :: fields, cleanField x) →
    ∀ (pre : List Char) (fuel : Nat) (item : List (List Char)),
      (joinFields (f :: fields)).length + 1 ≤ fuel →
      finishSplit (pre ++ (joinFields (f :: fields) ++ [NUL]))
          (splitLoop (pre ++ (joinFields (f :: fields) ++ [NUL])) fuel pre.length pre.length item)
        = some (item ++ f :: fields) := by
  induction fields with
  | nil =>
    intro f hf pre fuel item hfuel
    have hclean := hf f (List.mem_cons_self _ _)
    simp only [joinFields] at hfuel ⊢
    obtain ⟨m, rfl⟩ : ∃ m, fuel = (m + 1) + f.length := ⟨fuel - f.length - 1, by omega⟩
    rw [splitLoop_scan f hclean pre [] NUL (m + 1) pre.length item (by decide)]
    have e1 : pre ++ (f ++ [NUL]) = (pre ++ f) ++ NUL :: [] := by simp
    have e2 : pre.length + f.length = (pre ++ f).length := by simp
    rw [e1, e2, splitLoop_nul]
    simp only [finishSplit, mkString]
    have hc : pre.length ≤ (pre ++ f).length ∧
        (pre ++ f).length ≤ (pre ++ f ++ [NUL]).length := by simp
    rw [if_pos hc]
    simp only [List.length_append, Nat.add_sub_cancel_left, List.append_assoc,
      List.drop_left, List.take_left]
  | cons g rest ih =>
    intro f hf pre fuel item hfuel
    have hclean := hf f (List.mem_cons_self _ _)
    have hrest : ∀ x ∈ g :: rest, cleanField x := fun x hx => hf x (List.mem_cons_of_mem _ hx)
    rw [joinFields_cons_cons] at hfuel ⊢
    simp only [List.length_append, SEP, List.length_cons, List.length_nil] at hfuel
    obtain ⟨c1, t, hJ, hc1⟩ := joined_head g rest hrest
    obtain ⟨m, rfl⟩ : ∃ m, fuel = (m + 1 + 1) + f.length := ⟨fuel - f.length - 2, by omega⟩
    -- the characters of `f`
    have eA : pre ++ (f ++ (SEP ++ joinFields (g :: rest)) ++ [NUL])
        = pre ++ (f ++ ' ' :: (['|', '|', '|', ' '] ++ (joinFields (g :: rest) ++ [NUL]))) := by
      simp [SEP]
    rw [eA, splitLoop_scan f hclean pre _ ' ' (m + 1 + 1) pre.length item (by decide)]
    -- the separator
    have eB : pre ++ (f ++ ' ' :: (['|', '|', '|', ' '] ++ (joinFields (g :: rest) ++ [NUL])))
        = (pre ++ f) ++ (SEP ++ (joinFields (g :: rest) ++ [NUL])) := by
      simp [SEP]
    have eB2 : pre.length + f.length = (pre ++ f).length := by simp
    rw [eB, eB2, splitLoop_sep (pre ++ f) _ (m + 1) pre.length item (by simp)]
    -- the blank that ends the separator
    have eC : (pre ++ f) ++ (SEP ++ (joinFields (g :: rest) ++ [NUL]))
        = (pre ++ f ++ [' ', '|', '|', '|']) ++ ' ' :: c1 :: t := by
      rw [hJ]; simp [SEP]
    have eC2 : (pre ++ f).length + 3 + 1 = (pre ++ f ++ [' ', '|', '|', '|']).length := by simp; omega
    have eC3 : (pre ++ f).length + 5 = (pre ++ f ++ [' ', '|', '|', '|']).length + 1 := by simp; omega
    rw [eC, eC2, eC3, splitLoop_step _ t ' ' c1 m _ _ (by decide) hc1]
    -- the remaining fields
    have eD : (pre ++ f ++ [' ', '|', '|', '|']) ++ ' ' :: c1 :: t
        = (pre ++ f ++ SEP) ++ (joinFields (g :: rest) ++ [NUL]) := by
      rw [hJ]; simp [SEP]
    have eD2 : (pre ++ f ++ [' ', '|', '|', '|']).length + 1 = (pre ++ f ++ SEP).length := by
      simp [SEP]; omega
    rw [eD, eD2, ih g hrest (pre ++ f ++ SEP) m _ (by omega)]
    simp

end Consolidate

namespace Consolidate

/-- Where no separator begins, the test of the loop is false and reads nothing behind
the terminator. -/
theorem separatorAt_false (pre g : List Char) (c : Char) (hnul : NUL ∉ c :: g)
    (hsep : ¬ SEP <+: c :: g) :
    separatorAt (pre ++ (c :: g ++ [NUL])) pre.length = some false := by
  have hget : ∀ k, (pre ++ (c :: g ++ [NUL])).get? (pre.length + k) = (c :: g ++ [NUL]).get? k :=
    fun k => getq_append_add pre _ k
  have h0 : (pre ++ (c :: g ++ [NUL])).get? pre.length = (c :: g ++ [NUL]).get? 0 :=
    getq_append_len pre _
  unfold separatorAt
  rw [h0, hget 1, hget 2, hget 3, hget 4]
  rcases g with _ | ⟨c1, _ | ⟨c2, _ | ⟨c3, _ | ⟨c4, g5⟩⟩⟩⟩
  · by_cases e0 : c = ' ' <;> simp [e0, NUL]
  · by_cases e0 : c = ' ' <;> by_cases e1 : c1 = '|' <;> simp [e0, e1, NUL]
  · by_cases e0 : c = ' ' <;> by_cases e1 : c1 = '|' <;> by_cases e2 : c2 = '|' <;>
      simp [e0, e1, e2, NUL]
  · by_cases e0 : c = ' ' <;> by_cases e1 : c1 = '|' <;> by_cases e2 : c2 = '|' <;>
      by_cases e3 : c3 = '|' <;> simp [e0, e1, e2, e3, NUL]
  · by_cases e0 : c = ' ' <;> by_cases e1 : c1 = '|' <;> by_cases e2 : c2 = '|' <;>
      by_cases e3 : c3 = '|' <;> simp [e0, e1, e2, e3]
    intro e4
    apply hsep
    rw [e0, e1, e2, e3, e4]
    exact ⟨g5, rfl⟩

/-- Scanning a text without separator and without `NUL`. -/
theorem splitLoop_plain (g : List Char) :
    NUL ∉ g → (∀ s, s <:+ g → ¬ SEP <+: s) →
    ∀ (pre : List Char) (fuel start : Nat) (item : List (List Char)),
      splitLoop (pre ++ (g ++ [NUL])) (fuel + g.length) start pre.length item
        = splitLoop (pre ++ (g ++ [NUL])) fuel start (pre.length + g.length) item := by
  induction g with
  | nil => intro _ _ pre fuel start item; rfl
  | cons c g ih =>
    intro hnul hsep pre fuel start item
    have hcN : c ≠ NUL := fun h => hnul (h ▸ List.mem_cons_self _ _)
    have h0 : (pre ++ (c :: g ++ [NUL])).get? pre.length = some c := by
      rw [getq_append_len]; rfl
    have hs := separatorAt_false pre g c hnul (hsep _ (List.suffix_refl _))
    have e1 : fuel + (c :: g).length = (fuel + g.length) + 1 := by simp; omega
    rw [e1, splitLoop, h0]
    simp only [hcN, if_false, hs]
    have e2 : pre ++ (c :: g ++ [NUL]) = (pre ++ [c]) ++ (g ++ [NUL]) := by simp
    have e3 : pre.length + 1 = (pre ++ [c]).length := by simp
    rw [e2, e3, ih (fun h => hnul (List.mem_cons_of_mem _ h))
      (fun s hs' => hsep s (hs'.trans (List.suffix_cons c g))) (pre ++ [c]) fuel start item]
    simp only [List.length_append, List.length_cons, List.length_nil]
    congr 1
    omega

theorem splitLine_plain (text : List Char) (hnul : NUL ∉ text) (hsep : ¬ SEP <:+: text) :
    splitLine (text ++ [NUL]) = some [text] := by
  rw [splitLine_eq_finish]
  have hs : ∀ s, s <:+ text → ¬ SEP <+: s := by
    intro s hs hp
    exact hsep (List.infix_iff_prefix_suffix.mpr ⟨s, hp, hs⟩)
  have h := splitLoop_plain text hnul hs [] 1 0 []
  simp only [List.nil_append, List.length_nil, Nat.zero_add] at h
  have e : (text ++ [NUL]).length = 1 + text.length := by simp; omega
  rw [e, h]
  have h2 := splitLoop_nul text [] 0 0 []
  rw [h2]
  simp [finishSplit, mkString]

/-- C10, as amended. For every list of fields that is not empty, none of whose fields
contains `'|'` or `NUL` (empty fields allowed), with the joined text fitting in the
line buffer: the buffer content is the joined text and its terminator, and `splitLine`
on it returns the list of fields, all its reads staying within the text and its
terminating `NUL`. And a line without `NUL` in which `" ||| "` does not occur yields
the one-element list holding the whole line. -/
theorem splitLine_joinFields (fields : List (List Char)) (hne : fields ≠ [])
    (hclean : ∀ f ∈ fields, '|' ∉ f ∧ NUL ∉ f)
    (hfit : (joinFields fields).length < LINE_MAX_LENGTH) :
    (∃ line, lineBuffer (joinFields fields) = some line ∧
      line = joinFields fields ++ [NUL] ∧ splitLine line = some fields) ∧
    (∀ text : List Char, NUL ∉ text → ¬ SEP <:+: text → text.length < LINE_MAX_LENGTH →
      ∃ line, lineBuffer text = some line ∧ splitLine line = some [text]) := by
  constructor
  · refine ⟨joinFields fields ++ [NUL], by simp [lineBuffer, hfit], rfl, ?_⟩
    obtain ⟨f, rest, rfl⟩ := List.exists_cons_of_ne_nil hne
    rw [splitLine_eq_finish]
    have h := splitLoop_fields rest f hclean [] (joinFields (f :: rest) ++ [NUL]).length []
      (by simp)
    simpa using h
  · intro text hnul hsep hlen
    exact ⟨text ++ [NUL], by simp [lineBuffer, hlen], splitLine_plain text hnul hsep⟩

/-- C10, at the fields `a`, the empty field and `b c`. -/
theorem splitLine_joinFields_witness :
    (∃ line, lineBuffer (joinFields [['a'], [], ['b', ' ', 'c']]) = some line ∧
      line = joinFields [['a'], [], ['b', ' ', 'c']] ++ [NUL] ∧
      splitLine line = some [['a'], [], ['b', ' ', 'c']]) ∧
    (∀ text : List Char, NUL ∉ text → ¬ SEP <:+: text → text.length < LINE_MAX_LENGTH →
      ∃ line, lineBuffer text = some line ∧ splitLine line = some [text]) :=
  splitLine_joinFields [['a'], [], ['b', ' ', 'c']] (by decide) (by decide) (by decide)

/-- C10 as stated fails on a field that holds a `NUL`: the one field `a NUL b` has no
`'|'` and fits the buffer, and `splitLine` stops at the first `NUL` and returns the
one field `a`. -/
theorem splitLine_embedded_nul :
    [['a', NUL, 'b']] ≠ ([] : List (List Char)) ∧
    (∀ f ∈ [['a', NUL, 'b']], '|' ∉ f) ∧
    (joinFields [['a', NUL, 'b']]).length < LINE_MAX_LENGTH ∧
    lineBuffer (joinFields [['a', NUL, 'b']]) = some ['a', NUL, 'b', NUL] ∧
    splitLine ['a', NUL, 'b', NUL] = some [['a']] ∧
    splitLine ['a', NUL, 'b', NUL] ≠ some [['a', NUL, 'b']] := by
  refine ⟨by decide, by decide, by decide, by decide, by decide, by decide⟩

end Consolidate
